import Mathlib

/-!
Shallow embedding of the two source files of `ppl_gnn_stocks`
(`utils.py` and `init_temporal_correlations.py`) and proofs of the
specified properties.

Numeric model: the `numpy` / `scipy` floating-point values are modelled by
exact rationals `ℚ`; the Pearson coefficient, which involves a real square
root, lives in `ℝ`.  A 2D `numpy` array of shape
`(numEntities, numTimesteps)` is modelled as a `List (List ℚ)` of rows,
one row per entity; `Wellformed` states that the array is rectangular.
Python's negative indexing (`a[-1]` is the last element) is made explicit
at every site where the source relies on it.
-/

namespace GnnStocks

/-- Number of entities (rows) of a 2D array, i.e. `a.shape[0]`. -/
def numCompanies (g : List (List ℚ)) : ℕ := g.length

/-- Number of timesteps (columns) of a 2D array, i.e. `a.shape[1]`
(`len(a[0])` in the source). -/
def numTimesteps (g : List (List ℚ)) : ℕ := (g.getD 0 []).length

/-- The array is rectangular: every row has length `numTimesteps`. -/
def Wellformed (g : List (List ℚ)) : Prop :=
  ∀ row ∈ g, row.length = numTimesteps g

instance (g : List (List ℚ)) : Decidable (Wellformed g) := by
  unfold Wellformed; infer_instance

/-- Column `i` of the array: `a[:, i]` in numpy. -/
def column (g : List (List ℚ)) (i : ℕ) : List ℚ :=
  g.map (fun row => row.getD i 0)

/-- `np.max` of a list (the source only applies it to nonempty columns). -/
def lmax : List ℚ → ℚ
  | [] => 0
  | x :: xs => xs.foldl max x

/-- `np.average` of a list: sum divided by length. -/
def lavg (xs : List ℚ) : ℚ := xs.sum / xs.length

/-- `np.argmax` helper: first index attaining the running maximum.
`i` is the index of the next element, `b` the best index so far and `v`
its value; a later element replaces the best only if strictly larger,
matching numpy's first-occurrence tie-breaking. -/
def argmaxAux : List ℚ → ℕ → ℕ → ℚ → ℕ
  | [], _, b, _ => b
  | x :: xs, i, b, v =>
      if v < x then argmaxAux xs (i + 1) i x else argmaxAux xs (i + 1) b v

/-- `np.argmax` of a list (first index of the maximum). -/
def argmax : List ℚ → ℕ
  | [] => 0
  | x :: xs => argmaxAux xs 1 0 x

/-- `utils.best_return`: for each timestep, the maximum return across
companies (`np.max(pct_returns.T, axis=1)`), drop the first
`skip_n_steps`, multiply by `daily_investment` and sum. -/
def best_return (pct_returns : List (List ℚ)) (daily_investment : ℚ)
    (skip_n_steps : ℕ) : ℚ :=
  ((((List.range (numTimesteps pct_returns)).map
      (fun i => lmax (column pct_returns i))).drop skip_n_steps).map
      (fun v => daily_investment * v)).sum

/-- `utils.avg_return`: same as `best_return` with the per-timestep
average (`np.average(pct_returns.T, axis=1)`) instead of the maximum. -/
def avg_return (pct_returns : List (List ℚ)) (daily_investment : ℚ)
    (skip_n_steps : ℕ) : ℚ :=
  ((((List.range (numTimesteps pct_returns)).map
      (fun i => lavg (column pct_returns i))).drop skip_n_steps).map
      (fun v => daily_investment * v)).sum

/-- `utils.get_dataset`: rolling train/test split.  Returns either the
remaining length `len(price_data[0]) - start_point` (as a Python `int`,
hence `ℤ`) when the fold does not fit, or the pair of column slices
`price_data[:, start:split]`, `price_data[:, split:final]`. -/
def get_dataset (price_data : List (List ℚ)) (n train_size test_size : ℕ) :
    ℤ ⊕ (List (List ℚ) × List (List ℚ)) :=
  let start_point := n * test_size
  let split_point := start_point + train_size
  let final_point := split_point + test_size
  if (numTimesteps price_data) < final_point then
    Sum.inl ((numTimesteps price_data : ℤ) - (start_point : ℤ))
  else
    Sum.inr
      (price_data.map (fun row => (row.drop start_point).take train_size),
       price_data.map (fun row => (row.drop split_point).take test_size))

/-- `utils.profit`: for each timestep column `i`, let `best_buy` be the
argmax of `test[:, i]`; accumulate
`100 * (truth[best_buy, i] - truth[best_buy - 1, i]) / truth[best_buy - 1, i]`.
Note the `- 1` is on the ENTITY index; when `best_buy = 0` Python's
negative indexing makes `truth[-1, i]` the LAST row, modelled by `prev`. -/
def profit (test truth : List (List ℚ)) : ℚ :=
  ((List.range (numTimesteps test)).map (fun i =>
    let best_buy := argmax (column test i)
    let prev := if best_buy = 0 then truth.length - 1 else best_buy - 1
    100 * ((truth.getD best_buy []).getD i 0 - (truth.getD prev []).getD i 0)
      / ((truth.getD prev []).getD i 0))).sum

/-- The profit formula as the specification describes it, for comparison
with `profit`: the percent change of `truth` for the chosen entity
between the PREVIOUS TIMESTEP and timestep `i` (at `i = 0` the previous
timestep wraps to the last column, the negative-indexing reading the
spec describes). -/
def profitSpec (test truth : List (List ℚ)) : ℚ :=
  ((List.range (numTimesteps test)).map (fun i =>
    let best_buy := argmax (column test i)
    let row := truth.getD best_buy []
    let iprev := if i = 0 then row.length - 1 else i - 1
    100 * (row.getD i 0 - row.getD iprev 0) / row.getD iprev 0)).sum

/-! ## CorrelationComputer (`init_temporal_correlations.py`) -/

/-- `np.mean` of a list. -/
def mean (xs : List ℚ) : ℚ := xs.sum / xs.length

/-- Centered cross-moment `Σᵢ (xsᵢ - mean xs) * (ysᵢ - mean ys)` over the
common index range, the numerator of the Pearson coefficient. -/
def cmom (xs ys : List ℚ) : ℚ :=
  ∑ i ∈ Finset.range (min xs.length ys.length),
    (xs.getD i 0 - mean xs) * (ys.getD i 0 - mean ys)

/-- Sum of squared deviations from the mean (unnormalized variance). -/
def svar (xs : List ℚ) : ℚ := cmom xs xs

/-- The NaN-substitution sentinel `1e-10` of the source. -/
def sentinel : ℚ := 1 / 10 ^ 10

/-- The Pearson correlation coefficient of two equal-length samples:
`cmom / sqrt(svar xs * svar ys)` (the `n` factors cancel). -/
noncomputable def pearson (xs ys : List ℚ) : ℝ :=
  (cmom xs ys : ℝ) / Real.sqrt ((svar xs : ℝ) * (svar ys : ℝ))

/-- `scipy.stats.pearsonr(xs, ys)[0]` followed by the source's
`if np.isnan(c1_c2_corr): c1_c2_corr = 1e-10` substitution: the
coefficient is NaN exactly when the denominator vanishes, i.e. when
either sample has zero variance (a constant input). -/
noncomputable def pearsonSafe (xs ys : List ℚ) : ℝ :=
  if svar xs = 0 ∨ svar ys = 0 then (sentinel : ℝ) else pearson xs ys

/-- `gt_data.T[t:t+w][:, c]`, i.e. the length-`w` window of entity `c`
starting at timestep `t`. -/
def window (g : List (List ℚ)) (c t w : ℕ) : List ℚ :=
  ((g.getD c []).drop t).take w

/-- The value stored at cell `(t, c1, c2)` of the correlation tensor:
the inner loop only runs `c2` over `range(1, num_companies - 1)`, so
cells outside that band keep the `np.zeros` fill. -/
noncomputable def corrEntry (g : List (List ℚ)) (w t c1 c2 : ℕ) : ℝ :=
  if 1 ≤ c2 ∧ c2 < numCompanies g - 1 then
    pearsonSafe (window g c1 t w) (window g c2 t w)
  else 0

/-- The correlation tensor `corr`: `np.zeros((T - w, N, N))` written by
the triple loop `t ∈ range(T - w)`, `c1 ∈ range(0, N)`,
`c2 ∈ range(1, N - 1)` (each cell is written at most once). -/
noncomputable def corrTensor (g : List (List ℚ)) (w : ℕ) :
    List (List (List ℝ)) :=
  (List.range (numTimesteps g - w)).map fun t =>
    (List.range (numCompanies g)).map fun c1 =>
      (List.range (numCompanies g)).map fun c2 =>
        corrEntry g w t c1 c2

/-- Element access `A[t][i][j]` in a 3D tensor. -/
def tensorGet (A : List (List (List ℝ))) (t i j : ℕ) : ℝ :=
  ((A.getD t []).getD i []).getD j 0

/-- A constant sample: every element equals the first one. -/
def IsConst (xs : List ℚ) : Prop := ∀ x ∈ xs, x = xs.getD 0 0

instance (xs : List ℚ) : Decidable (IsConst xs) := by
  unfold IsConst; infer_instance

/-! ## Helper lemmas -/

lemma getD_map_range {α : Type} (f : ℕ → α) (d : α) {i n : ℕ} (h : i < n) :
    ((List.range n).map f).getD i d = f i := by
  have hlen : i < ((List.range n).map f).length := by simpa using h
  rw [List.getD_eq_getElem _ _ hlen]
  simp

/-- Inside the loop ranges, the tensor cell holds `corrEntry`. -/
lemma tensorGet_corrTensor (g : List (List ℚ)) (w t i j : ℕ)
    (ht : t < numTimesteps g - w) (hi : i < numCompanies g)
    (hj : j < numCompanies g) :
    tensorGet (corrTensor g w) t i j = corrEntry g w t i j := by
  unfold tensorGet corrTensor
  rw [getD_map_range _ _ ht, getD_map_range _ _ hi, getD_map_range _ _ hj]

lemma svar_eq_sum (xs : List ℚ) :
    svar xs = ∑ i ∈ Finset.range xs.length,
      (xs.getD i 0 - mean xs) * (xs.getD i 0 - mean xs) := by
  unfold svar cmom
  simp

lemma svar_nonneg (xs : List ℚ) : 0 ≤ svar xs := by
  rw [svar_eq_sum]
  exact Finset.sum_nonneg fun i _ => mul_self_nonneg _

lemma mean_of_isConst {xs : List ℚ} (h : IsConst xs) :
    xs.sum = xs.length * xs.getD 0 0 := by
  rw [List.sum_eq_card_nsmul xs (xs.getD 0 0) h, nsmul_eq_mul]

lemma getD_eq_head_of_isConst {xs : List ℚ} (h : IsConst xs) {i : ℕ}
    (hi : i < xs.length) : xs.getD i 0 = xs.getD 0 0 :=
  h _ (by rw [List.getD_eq_getElem _ _ hi]; exact List.getElem_mem hi)

lemma svar_eq_zero_of_isConst {xs : List ℚ} (h : IsConst xs) :
    svar xs = 0 := by
  rw [svar_eq_sum]
  refine Finset.sum_eq_zero fun i hi => ?_
  have hi' : i < xs.length := Finset.mem_range.mp hi
  have hmean : mean xs = xs.getD 0 0 := by
    rcases Nat.eq_zero_or_pos xs.length with h0 | h0
    · simp at hi'; omega
    · unfold mean
      rw [mean_of_isConst h, mul_comm, mul_div_assoc, div_self, mul_one]
      exact_mod_cast Nat.pos_iff_ne_zero.mp h0
  rw [getD_eq_head_of_isConst h hi', hmean, sub_self, mul_zero]

lemma isConst_of_svar_eq_zero {xs : List ℚ} (h : svar xs = 0) :
    IsConst xs := by
  rw [svar_eq_sum] at h
  have hz := (Finset.sum_eq_zero_iff_of_nonneg
    (fun i _ => mul_self_nonneg (xs.getD i 0 - mean xs))).mp h
  have hall : ∀ i < xs.length, xs.getD i 0 = mean xs := by
    intro i hi
    have := hz i (Finset.mem_range.mpr hi)
    have := mul_self_eq_zero.mp this
    linarith
  intro x hx
  obtain ⟨i, hi, hgi⟩ := List.mem_iff_getElem.mp hx
  have h0 : 0 < xs.length := Nat.pos_of_ne_zero (by
    intro h0
    rw [List.length_eq_zero.mp h0] at hx
    simp at hx)
  have hx' : x = mean xs := by
    rw [← hgi, ← List.getD_eq_getElem xs 0 hi]
    exact hall i hi
  rw [hx', ← hall 0 h0, List.getD_eq_getElem xs 0 h0]

/-- Cauchy–Schwarz for the centered moments: `cmom² ≤ svar · svar`. -/
lemma cmom_sq_le (xs ys : List ℚ) :
    cmom xs ys ^ 2 ≤ svar xs * svar ys := by
  set m := min xs.length ys.length with hm
  have hcs := Finset.sum_mul_sq_le_sq_mul_sq (Finset.range m)
    (fun i => xs.getD i 0 - mean xs) (fun i => ys.getD i 0 - mean ys)
  have hx : ∑ i ∈ Finset.range m, (xs.getD i 0 - mean xs) ^ 2 ≤ svar xs := by
    rw [svar_eq_sum]
    refine le_trans (le_of_eq rfl) ?_
    refine Finset.sum_le_sum_of_subset_of_nonneg
      (Finset.range_subset.mpr (hm ▸ min_le_left _ _)) ?_ |>.trans_eq ?_
    · intro i _ _; exact sq_nonneg _
    · exact Finset.sum_congr rfl fun i _ => sq (xs.getD i 0 - mean xs) ▸ by ring
  have hy : ∑ i ∈ Finset.range m, (ys.getD i 0 - mean ys) ^ 2 ≤ svar ys := by
    rw [svar_eq_sum]
    refine Finset.sum_le_sum_of_subset_of_nonneg
      (Finset.range_subset.mpr (hm ▸ min_le_right _ _)) ?_ |>.trans_eq ?_
    · intro i _ _; exact sq_nonneg _
    · exact Finset.sum_congr rfl fun i _ => by ring
  calc cmom xs ys ^ 2
      ≤ (∑ i ∈ Finset.range m, (xs.getD i 0 - mean xs) ^ 2) *
        ∑ i ∈ Finset.range m, (ys.getD i 0 - mean ys) ^ 2 := hcs
    _ ≤ svar xs * svar ys := by
        refine mul_le_mul hx hy (Finset.sum_nonneg fun i _ => sq_nonneg _) ?_
        exact le_trans (Finset.sum_nonneg fun i _ => sq_nonneg _) hx

/-- A sample correlated with itself gives coefficient exactly 1 whenever
its variance is nonzero. -/
lemma pearson_self {xs : List ℚ} (h : svar xs ≠ 0) : pearson xs xs = 1 := by
  unfold pearson
  have hpos : (0 : ℝ) < (svar xs : ℝ) := by
    have := svar_nonneg xs
    have : (0 : ℝ) ≤ (svar xs : ℝ) := by exact_mod_cast this
    rcases lt_or_eq_of_le this with h' | h'
    · exact h'
    · exact absurd (by exact_mod_cast h'.symm) h
  have hcm : cmom xs xs = svar xs := rfl
  rw [hcm, Real.sqrt_mul_self hpos.le, div_self hpos.ne']

/-- For samples of nonzero variance the Pearson coefficient lies in
`[-1, 1]`. -/
lemma pearson_mem_Icc {xs ys : List ℚ} (hx : svar xs ≠ 0)
    (hy : svar ys ≠ 0) : pearson xs ys ∈ Set.Icc (-1 : ℝ) 1 := by
  have hxpos : (0 : ℝ) < (svar xs : ℝ) := by
    rcases lt_or_eq_of_le (svar_nonneg xs) with h' | h'
    · exact_mod_cast h'
    · exact absurd h'.symm hx
  have hypos : (0 : ℝ) < (svar ys : ℝ) := by
    rcases lt_or_eq_of_le (svar_nonneg ys) with h' | h'
    · exact_mod_cast h'
    · exact absurd h'.symm hy
  have hP : (0 : ℝ) < (svar xs : ℝ) * (svar ys : ℝ) := mul_pos hxpos hypos
  have hsq : ((cmom xs ys : ℝ)) ^ 2 ≤ (svar xs : ℝ) * (svar ys : ℝ) := by
    exact_mod_cast cmom_sq_le xs ys
  have habs : |(cmom xs ys : ℝ)| ≤ Real.sqrt ((svar xs : ℝ) * (svar ys : ℝ)) := by
    rw [← Real.sqrt_sq_eq_abs]
    exact Real.sqrt_le_sqrt hsq
  have hsd : (0 : ℝ) < Real.sqrt ((svar xs : ℝ) * (svar ys : ℝ)) :=
    Real.sqrt_pos.mpr hP
  have : |pearson xs ys| ≤ 1 := by
    unfold pearson
    rw [abs_div, abs_of_pos hsd, div_le_one hsd]
    exact habs
  exact abs_le.mp this

lemma le_foldl_max (x : ℚ) (t : List ℚ) :
    x ≤ t.foldl max x ∧ ∀ y ∈ t, y ≤ t.foldl max x := by
  induction t generalizing x with
  | nil => simp
  | cons a t ih =>
    obtain ⟨h1, h2⟩ := ih (max x a)
    refine ⟨le_trans (le_max_left x a) h1, ?_⟩
    intro y hy
    rcases List.mem_cons.mp hy with rfl | hy'
    · exact le_trans (le_max_right x y) h1
    · exact h2 y hy'

lemma mem_le_lmax {xs : List ℚ} {y : ℚ} (hy : y ∈ xs) : y ≤ lmax xs := by
  cases xs with
  | nil => simp at hy
  | cons x t =>
    rcases List.mem_cons.mp hy with rfl | hy'
    · exact (le_foldl_max y t).1
    · exact (le_foldl_max x t).2 y hy'

/-- The mean of a list never exceeds its maximum. -/
lemma lavg_le_lmax (xs : List ℚ) : lavg xs ≤ lmax xs := by
  cases xs with
  | nil => simp [lavg, lmax]
  | cons x t =>
    have hlen : (0 : ℚ) < ((x :: t).length : ℚ) := by
      exact_mod_cast Nat.succ_pos t.length
    have hsum : (x :: t).sum ≤ ((x :: t).length : ℚ) * lmax (x :: t) := by
      have := List.sum_le_card_nsmul (x :: t) (lmax (x :: t))
        (fun y hy => mem_le_lmax hy)
      rwa [nsmul_eq_mul] at this
    unfold lavg
    rw [div_le_iff₀ hlen, mul_comm]
    exact hsum

lemma best_return_eq (R : List (List ℚ)) (daily : ℚ) (skip : ℕ) :
    best_return R daily skip =
      (((List.range (numTimesteps R)).drop skip).map
        (fun i => daily * lmax (column R i))).sum := by
  unfold best_return
  rw [← List.map_drop, List.map_map]
  rfl

lemma avg_return_eq (R : List (List ℚ)) (daily : ℚ) (skip : ℕ) :
    avg_return R daily skip =
      (((List.range (numTimesteps R)).drop skip).map
        (fun i => daily * lavg (column R i))).sum := by
  unfold avg_return
  rw [← List.map_drop, List.map_map]
  rfl

lemma drop_range (n k : ℕ) : (List.range n).drop k = List.range' k (n - k) := by
  apply List.ext_getElem
  · simp
  · intro i h1 h2
    simp only [List.getElem_drop, List.getElem_range, List.getElem_range']
    omega

lemma sum_map_range' (f : ℕ → ℚ) (s m : ℕ) :
    ((List.range' s m).map f).sum = ∑ i ∈ Finset.Ico s (s + m), f i := by
  induction m generalizing s with
  | zero => simp
  | succ m ih =>
    have he : s + 1 + m = s + (m + 1) := by omega
    rw [List.range'_succ, List.map_cons, List.sum_cons, ih (s + 1), he,
      Finset.sum_eq_sum_Ico_succ_bot (by omega : s < s + (m + 1))]

lemma sum_drop_map_range (f : ℕ → ℚ) (k T : ℕ) :
    (((List.range T).drop k).map f).sum = ∑ i ∈ Finset.Ico k T, f i := by
  rcases le_or_lt k T with hk | hk
  · have he : k + (T - k) = T := by omega
    rw [drop_range, sum_map_range', he]
  · rw [List.drop_eq_nil_of_le (by simpa using hk.le),
      Finset.Ico_eq_empty (by omega)]
    simp

/-! ## Claim theorems -/

/-- C8: for every return matrix with at least one entity, every
nonnegative daily investment and every number of skipped steps,
`best_return` is at least `avg_return`, because the per-timestep maximum
across entities is at least the per-timestep mean. -/
theorem best_return_ge_avg_return (R : List (List ℚ)) (daily : ℚ)
    (skip : ℕ) (hR : R ≠ []) (hd : 0 ≤ daily) :
    avg_return R daily skip ≤ best_return R daily skip := by
  rw [best_return_eq, avg_return_eq]
  refine List.sum_le_sum fun i _ => ?_
  exact mul_le_mul_of_nonneg_left (lavg_le_lmax _) hd

theorem best_return_ge_avg_return_witness :
    ([[1, 2], [3, 1]] : List (List ℚ)) ≠ [] ∧ (0 : ℚ) ≤ 100 ∧
    avg_return [[1, 2], [3, 1]] 100 0 ≤ best_return [[1, 2], [3, 1]] 100 0 :=
  ⟨by simp, by norm_num,
    best_return_ge_avg_return [[1, 2], [3, 1]] 100 0 (by simp) (by norm_num)⟩

/-- C9: `best_return` is the sum, over the timesteps remaining after
dropping the first `skip` ones, of `daily` times the per-timestep
maximum across entities; in particular
`best_return [[1,2],[3,1]] 100 0 = 100 * (3 + 2) = 500`. -/
theorem best_return_formula :
    (∀ (R : List (List ℚ)) (daily : ℚ) (skip : ℕ),
      best_return R daily skip =
        ∑ i ∈ Finset.Ico skip (numTimesteps R), daily * lmax (column R i)) ∧
    best_return [[1, 2], [3, 1]] 100 0 = 500 := by
  constructor
  · intro R daily skip
    rw [best_return_eq, sum_drop_map_range]
  · norm_num [best_return, numTimesteps, column, lmax, List.range_succ,
      max_def]

/-- C10: on a matrix with exactly one entity, `best_return` and
`avg_return` coincide for every daily investment and skip count, since
max and mean over a single entity agree at every timestep. -/
theorem best_return_eq_avg_return_single (row : List ℚ) (daily : ℚ)
    (skip : ℕ) :
    best_return [row] daily skip = avg_return [row] daily skip := by
  simp [best_return, avg_return, column, lmax, lavg]

/-- C1: at the input `test = [[0,0],[1,1]]`, `truth = [[1,1],[2,4]]`
(two entities, two timesteps, argmax entity 1 in both columns) the code
returns 400, reading `truth[best_buy - 1, i]` — the PREVIOUS ENTITY at
the same timestep — while the specified formula
`100 * (truth[b,i] - truth[b,i-1]) / truth[b,i-1]` (same entity,
previous timestep) gives 50. -/
theorem profit_previous_entity_divergence :
    profit [[0, 0], [1, 1]] [[1, 1], [2, 4]] = 400 ∧
    profitSpec [[0, 0], [1, 1]] [[1, 1], [2, 4]] = 50 ∧
    profit [[0, 0], [1, 1]] [[1, 1], [2, 4]] ≠
      profitSpec [[0, 0], [1, 1]] [[1, 1], [2, 4]] := by
  refine ⟨?_, ?_, ?_⟩ <;>
    norm_num [profit, profitSpec, numTimesteps, column, argmax, argmaxAux,
      List.range_succ]

lemma getD_map_of_lt {α β : Type} (l : List α) (f : α → β) (c : ℕ)
    (d : β) (d' : α) (h : c < l.length) :
    (l.map f).getD c d = f (l.getD c d') := by
  rw [List.getD_eq_getElem _ _ (by simpa using h), List.getD_eq_getElem _ _ h,
    List.getElem_map]

lemma getD_take_drop (r : List ℚ) (a m k : ℕ) (hk : k < m)
    (hr : a + m ≤ r.length) :
    ((r.drop a).take m).getD k 0 = r.getD (a + k) 0 := by
  have h1 : k < ((r.drop a).take m).length := by
    simp only [List.length_take, List.length_drop]
    omega
  have h2 : a + k < r.length := by omega
  rw [List.getD_eq_getElem _ _ h1, List.getD_eq_getElem _ _ h2,
    List.getElem_take, List.getElem_drop]

lemma getD_mem_of_lt (l : List (List ℚ)) (c : ℕ) (h : c < l.length) :
    l.getD c [] ∈ l := by
  rw [List.getD_eq_getElem _ _ h]
  exact List.getElem_mem h

/-- C7: `get_dataset` returns the train/test split — train being columns
`[n·ts, n·ts + tr)` and test being columns `[n·ts + tr, n·ts + tr + ts)`
of the price series — exactly when `n·ts + tr + ts ≤ numTimesteps`;
otherwise it returns the integer `numTimesteps - n·ts` instead of a
split. -/
theorem get_dataset_spec (price : List (List ℚ)) (n tr ts : ℕ)
    (hwf : Wellformed price) :
    (n * ts + tr + ts ≤ numTimesteps price →
      ∃ train test,
        get_dataset price n tr ts = Sum.inr (train, test) ∧
        train.length = price.length ∧ test.length = price.length ∧
        ∀ c < price.length,
          (train.getD c []).length = tr ∧ (test.getD c []).length = ts ∧
          (∀ k < tr,
            (train.getD c []).getD k 0 = (price.getD c []).getD (n * ts + k) 0) ∧
          (∀ k < ts,
            (test.getD c []).getD k 0 =
              (price.getD c []).getD (n * ts + tr + k) 0)) ∧
    (numTimesteps price < n * ts + tr + ts →
      get_dataset price n tr ts =
        Sum.inl ((numTimesteps price : ℤ) - ((n * ts : ℕ) : ℤ))) := by
  constructor
  · intro h
    refine ⟨price.map (fun row => (row.drop (n * ts)).take tr),
      price.map (fun row => (row.drop (n * ts + tr)).take ts), ?_, by simp,
      by simp, ?_⟩
    · unfold get_dataset
      rw [if_neg (not_lt.mpr h)]
    · intro c hc
      have hrow : (price.getD c []).length = numTimesteps price :=
        hwf _ (getD_mem_of_lt price c hc)
      rw [getD_map_of_lt price _ c [] [] hc, getD_map_of_lt price _ c [] [] hc]
      refine ⟨?_, ?_, ?_, ?_⟩
      · simp only [List.length_take, List.length_drop, hrow]
        omega
      · simp only [List.length_take, List.length_drop, hrow]
        omega
      · intro k hk
        exact getD_take_drop _ _ _ _ hk (by omega)
      · intro k hk
        have := getD_take_drop (price.getD c []) (n * ts + tr) ts k hk
          (by omega)
        exact this
  · intro h
    unfold get_dataset
    rw [if_pos h]

theorem get_dataset_spec_witness :
    Wellformed [[1, 2, 3, 4], [5, 6, 7, 8]] ∧
    1 * 1 + 2 + 1 ≤ numTimesteps [[1, 2, 3, 4], [5, 6, 7, 8]] ∧
    (∃ train test,
      get_dataset [[1, 2, 3, 4], [5, 6, 7, 8]] 1 2 1 = Sum.inr (train, test) ∧
      train.length = ([[1, 2, 3, 4], [5, 6, 7, 8]] : List (List ℚ)).length ∧
      test.length = ([[1, 2, 3, 4], [5, 6, 7, 8]] : List (List ℚ)).length ∧
      ∀ c < ([[1, 2, 3, 4], [5, 6, 7, 8]] : List (List ℚ)).length,
        (train.getD c []).length = 2 ∧ (test.getD c []).length = 1 ∧
        (∀ k < 2,
          (train.getD c []).getD k 0 =
            (([[1, 2, 3, 4], [5, 6, 7, 8]] : List (List ℚ)).getD c []).getD
              (1 * 1 + k) 0) ∧
        (∀ k < 1,
          (test.getD c []).getD k 0 =
            (([[1, 2, 3, 4], [5, 6, 7, 8]] : List (List ℚ)).getD c []).getD
              (1 * 1 + 2 + k) 0)) :=
  ⟨by decide, by decide,
    (get_dataset_spec [[1, 2, 3, 4], [5, 6, 7, 8]] 1 2 1 (by decide)).1
      (by decide)⟩

lemma svar_one_zero : svar [(1 : ℚ), 0] = 1 / 2 := by
  norm_num [svar, cmom, mean, Finset.sum_range_succ, List.getD_cons_zero,
    List.getD_cons_succ]

lemma svar_zero_one : svar [(0 : ℚ), 1] = 1 / 2 := by
  norm_num [svar, cmom, mean, Finset.sum_range_succ, List.getD_cons_zero,
    List.getD_cons_succ]

/-- C3: the inner loop runs `c2` only over `range(1, numCompanies - 1)`,
so for every valid timestep `t` and every entity `i` the tensor cells
`[t][i][0]` and `[t][i][numCompanies - 1]` keep the zero fill. -/
theorem corr_edge_columns_zero (g : List (List ℚ)) (w t i : ℕ)
    (ht : t < numTimesteps g - w) (hi : i < numCompanies g) :
    tensorGet (corrTensor g w) t i 0 = 0 ∧
    tensorGet (corrTensor g w) t i (numCompanies g - 1) = 0 := by
  have h0 : 0 < numCompanies g := by omega
  constructor
  · rw [tensorGet_corrTensor g w t i 0 ht hi h0]
    unfold corrEntry
    rw [if_neg (by omega)]
  · rw [tensorGet_corrTensor g w t i (numCompanies g - 1) ht hi (by omega)]
    unfold corrEntry
    rw [if_neg (by omega)]

theorem corr_edge_columns_zero_witness :
    0 < numTimesteps [[1, 2, 3], [4, 5, 6], [7, 8, 9]] - 1 ∧
    1 < numCompanies [[1, 2, 3], [4, 5, 6], [7, 8, 9]] ∧
    (tensorGet (corrTensor [[1, 2, 3], [4, 5, 6], [7, 8, 9]] 1) 0 1 0 = 0 ∧
     tensorGet (corrTensor [[1, 2, 3], [4, 5, 6], [7, 8, 9]] 1) 0 1
       (numCompanies [[1, 2, 3], [4, 5, 6], [7, 8, 9]] - 1) = 0) :=
  ⟨by decide, by decide,
    corr_edge_columns_zero [[1, 2, 3], [4, 5, 6], [7, 8, 9]] 1 0 1
      (by decide) (by decide)⟩

/-- C2 counterexample: with returns `[[0,1,0],[1,0,1],[0,1,1]]` and
window 2, the diagonal cell `[0][1][1]` IS computed by the loops
(`c1 = c2 = 1` lies in both ranges) and holds the self-correlation 1,
not the zero fill. -/
theorem corr_diag_counterexample :
    tensorGet (corrTensor [[0, 1, 0], [1, 0, 1], [0, 1, 1]] 2) 0 1 1 = 1 ∧
    tensorGet (corrTensor [[0, 1, 0], [1, 0, 1], [0, 1, 1]] 2) 0 1 1 ≠ 0 := by
  have h1 : tensorGet (corrTensor [[0, 1, 0], [1, 0, 1], [0, 1, 1]] 2)
      0 1 1 = 1 := by
    rw [tensorGet_corrTensor _ _ _ _ _ (by decide) (by decide) (by decide)]
    unfold corrEntry
    rw [if_pos (by decide)]
    have hw : window [[0, 1, 0], [1, 0, 1], [0, 1, 1]] 1 0 2 = [1, 0] := rfl
    rw [hw]
    unfold pearsonSafe
    have hv : svar [(1 : ℚ), 0] ≠ 0 := by
      rw [svar_one_zero]; norm_num
    rw [if_neg (by tauto)]
    exact pearson_self hv
  exact ⟨h1, by rw [h1]; norm_num⟩

/-- C2 amended: for every valid `t`, the corner diagonal cells
`[t][0][0]` and `[t][N-1][N-1]` keep the zero fill (their column index
is outside the inner loop's range), but every other diagonal cell
`[t][i][i]` with `1 ≤ i < N - 1` IS computed and equals 1 whenever the
window of entity `i` is not constant. -/
theorem corr_diagonal_amended (g : List (List ℚ)) (w t : ℕ)
    (ht : t < numTimesteps g - w) (hN : 0 < numCompanies g) :
    tensorGet (corrTensor g w) t 0 0 = 0 ∧
    tensorGet (corrTensor g w) t (numCompanies g - 1)
      (numCompanies g - 1) = 0 ∧
    ∀ i, 1 ≤ i → i < numCompanies g - 1 → ¬IsConst (window g i t w) →
      tensorGet (corrTensor g w) t i i = 1 := by
  refine ⟨?_, ?_, ?_⟩
  · rw [tensorGet_corrTensor g w t 0 0 ht hN hN]
    unfold corrEntry
    rw [if_neg (by omega)]
  · rw [tensorGet_corrTensor g w t _ _ ht (by omega) (by omega)]
    unfold corrEntry
    rw [if_neg (by omega)]
  · intro i h1 h2 hc
    rw [tensorGet_corrTensor g w t i i ht (by omega) (by omega)]
    unfold corrEntry
    rw [if_pos ⟨h1, h2⟩]
    unfold pearsonSafe
    have hv : svar (window g i t w) ≠ 0 :=
      fun h => hc (isConst_of_svar_eq_zero h)
    rw [if_neg (by tauto)]
    exact pearson_self hv

theorem corr_diagonal_amended_witness :
    0 < numTimesteps [[0, 1, 0], [1, 0, 1], [0, 1, 1]] - 2 ∧
    0 < numCompanies [[0, 1, 0], [1, 0, 1], [0, 1, 1]] ∧
    (tensorGet (corrTensor [[0, 1, 0], [1, 0, 1], [0, 1, 1]] 2) 0 0 0 = 0 ∧
     tensorGet (corrTensor [[0, 1, 0], [1, 0, 1], [0, 1, 1]] 2) 0
       (numCompanies [[0, 1, 0], [1, 0, 1], [0, 1, 1]] - 1)
       (numCompanies [[0, 1, 0], [1, 0, 1], [0, 1, 1]] - 1) = 0 ∧
     ∀ i, 1 ≤ i → i < numCompanies [[0, 1, 0], [1, 0, 1], [0, 1, 1]] - 1 →
       ¬IsConst (window [[0, 1, 0], [1, 0, 1], [0, 1, 1]] i 0 2) →
       tensorGet (corrTensor [[0, 1, 0], [1, 0, 1], [0, 1, 1]] 2) 0 i i = 1) :=
  ⟨by decide, by decide,
    corr_diagonal_amended [[0, 1, 0], [1, 0, 1], [0, 1, 1]] 2 0
      (by decide) (by decide)⟩

/-- C4: a computed cell whose window pair is degenerate (either window
constant, the case where `pearsonr` yields NaN) stores exactly the
sentinel `1e-10`. -/
theorem corr_constant_window_sentinel (g : List (List ℚ)) (w t c1 c2 : ℕ)
    (hwf : Wellformed g) (hw : 2 ≤ w) (ht : t < numTimesteps g - w)
    (hc1 : c1 < numCompanies g) (h1 : 1 ≤ c2)
    (h2 : c2 < numCompanies g - 1)
    (hc : IsConst (window g c1 t w) ∨ IsConst (window g c2 t w)) :
    tensorGet (corrTensor g w) t c1 c2 = (sentinel : ℝ) := by
  rw [tensorGet_corrTensor g w t c1 c2 ht hc1 (by omega)]
  unfold corrEntry
  rw [if_pos ⟨h1, h2⟩]
  unfold pearsonSafe
  rw [if_pos]
  rcases hc with h | h
  · exact Or.inl (svar_eq_zero_of_isConst h)
  · exact Or.inr (svar_eq_zero_of_isConst h)

theorem corr_constant_window_sentinel_witness :
    Wellformed [[1, 1, 1], [1, 0, 1], [2, 3, 4]] ∧ 2 ≤ 2 ∧
    0 < numTimesteps [[1, 1, 1], [1, 0, 1], [2, 3, 4]] - 2 ∧
    0 < numCompanies [[1, 1, 1], [1, 0, 1], [2, 3, 4]] ∧
    IsConst (window [[1, 1, 1], [1, 0, 1], [2, 3, 4]] 0 0 2) ∧
    tensorGet (corrTensor [[1, 1, 1], [1, 0, 1], [2, 3, 4]] 2) 0 0 1 =
      (sentinel : ℝ) :=
  ⟨by decide, by decide, by decide, by decide, by decide,
    corr_constant_window_sentinel [[1, 1, 1], [1, 0, 1], [2, 3, 4]] 2 0 0 1
      (by decide) (by decide) (by decide) (by decide) (by decide) (by decide)
      (Or.inl (by decide))⟩

/-- C5: for a rectangular return series and `w < numTimesteps`, the
correlation tensor has shape exactly
`(numTimesteps - w, numCompanies, numCompanies)`. -/
theorem corrTensor_shape (g : List (List ℚ)) (w : ℕ)
    (hw : w < numTimesteps g) (hwf : Wellformed g) :
    (corrTensor g w).length = numTimesteps g - w ∧
    ∀ M ∈ corrTensor g w, M.length = numCompanies g ∧
      ∀ r ∈ M, r.length = numCompanies g := by
  constructor
  · simp [corrTensor]
  · intro M hM
    unfold corrTensor at hM
    obtain ⟨t, ht, rfl⟩ := List.mem_map.mp hM
    refine ⟨by simp, ?_⟩
    intro r hr
    obtain ⟨c1, hc1, rfl⟩ := List.mem_map.mp hr
    simp

theorem corrTensor_shape_witness :
    1 < numTimesteps [[1, 2, 3], [4, 5, 6], [7, 8, 9]] ∧
    Wellformed [[1, 2, 3], [4, 5, 6], [7, 8, 9]] ∧
    ((corrTensor [[1, 2, 3], [4, 5, 6], [7, 8, 9]] 1).length =
      numTimesteps [[1, 2, 3], [4, 5, 6], [7, 8, 9]] - 1 ∧
     ∀ M ∈ corrTensor [[1, 2, 3], [4, 5, 6], [7, 8, 9]] 1,
       M.length = numCompanies [[1, 2, 3], [4, 5, 6], [7, 8, 9]] ∧
       ∀ r ∈ M, r.length = numCompanies [[1, 2, 3], [4, 5, 6], [7, 8, 9]]) :=
  ⟨by decide, by decide,
    corrTensor_shape [[1, 2, 3], [4, 5, 6], [7, 8, 9]] 1 (by decide)
      (by decide)⟩

/-- C6: every computed cell whose two windows are both non-constant
holds a value in the closed interval `[-1, 1]`. -/
theorem corr_nonconst_in_Icc (g : List (List ℚ)) (w t i j : ℕ)
    (ht : t < numTimesteps g - w) (hi : i < numCompanies g) (h1 : 1 ≤ j)
    (h2 : j < numCompanies g - 1) (hx : ¬IsConst (window g i t w))
    (hy : ¬IsConst (window g j t w)) :
    tensorGet (corrTensor g w) t i j ∈ Set.Icc (-1 : ℝ) 1 := by
  rw [tensorGet_corrTensor g w t i j ht hi (by omega)]
  unfold corrEntry
  rw [if_pos ⟨h1, h2⟩]
  unfold pearsonSafe
  have hvx : svar (window g i t w) ≠ 0 :=
    fun h => hx (isConst_of_svar_eq_zero h)
  have hvy : svar (window g j t w) ≠ 0 :=
    fun h => hy (isConst_of_svar_eq_zero h)
  rw [if_neg (by tauto)]
  exact pearson_mem_Icc hvx hvy

theorem corr_nonconst_in_Icc_witness :
    0 < numTimesteps [[0, 1, 0], [1, 0, 1], [0, 1, 1]] - 2 ∧
    0 < numCompanies [[0, 1, 0], [1, 0, 1], [0, 1, 1]] ∧
    ¬IsConst (window [[0, 1, 0], [1, 0, 1], [0, 1, 1]] 0 0 2) ∧
    ¬IsConst (window [[0, 1, 0], [1, 0, 1], [0, 1, 1]] 1 0 2) ∧
    tensorGet (corrTensor [[0, 1, 0], [1, 0, 1], [0, 1, 1]] 2) 0 0 1 ∈
      Set.Icc (-1 : ℝ) 1 :=
  ⟨by decide, by decide, by decide, by decide,
    corr_nonconst_in_Icc [[0, 1, 0], [1, 0, 1], [0, 1, 1]] 2 0 0 1
      (by decide) (by decide) (by decide) (by decide) (by decide)
      (by decide)⟩

end GnnStocks
